import Mathlib

/-!
The command-line front end of mutool clean (source/tools/pdfclean.c).

A shallow embedding of `encrypt_method_from_string` and `pdfclean_main`.

Conventions of the embedding.

* A C string (NUL-terminated `char *`) is a `String`, one `Char` per `char`.
* The C `int` fields that the option loop increments are `Int`s kept in the
  32-bit two's-complement range by `int_incr`.
* `fz_getopt`, `fz_atoi`, `fz_strlcpy`, `fz_new_context`, `pdf_clean_file`, the
  constant `pdf_default_write_options` and the declaration of
  `pdf_write_options` live in other files of the library.  The loop in
  `pdfclean_main` observes `fz_getopt` only through the value it returns, the
  global `fz_optarg` at that moment, and the global `fz_optind` once it has
  returned -1; none of `argc`, `argv`, the option string or those globals is
  written by the loop.  So the run of `fz_getopt` over a command line is taken
  as a parameter (`GetoptRun`), and so are the other helpers (`Env`).
-/

set_option autoImplicit false

namespace PdfClean

/-! ## Data model -/

/-- Modelled from the spec: the encryption method tag of the write configuration
("method tag (none / RC4-40 / RC4-128 / AES-128 / AES-256)").  The C enum is declared
in a header of the library (mupdf/pdf.h); pdfclean.c names
`PDF_ENCRYPT_NONE`, the four methods and `PDF_ENCRYPT_UNKNOWN`.  `PDF_ENCRYPT_KEEP`
stands for any further value the default write options may carry. -/
inductive pdf_encrypt_method where
  | PDF_ENCRYPT_KEEP
  | PDF_ENCRYPT_NONE
  | PDF_ENCRYPT_RC4_40
  | PDF_ENCRYPT_RC4_128
  | PDF_ENCRYPT_AES_128
  | PDF_ENCRYPT_AES_256
  | PDF_ENCRYPT_UNKNOWN
  deriving DecidableEq, Repr

open pdf_encrypt_method

/-- Modelled from the spec: the write configuration record ("one boolean/integer/string
field per concern"); the struct is declared in a header of the library (mupdf/pdf.h).
The fields are exactly those that pdfclean.c reads or writes. -/
structure pdf_write_options where
  do_pretty : Int
  do_ascii : Int
  do_compress : Int
  do_compress_images : Int
  do_compress_fonts : Int
  do_decompress : Int
  do_garbage : Int
  do_linear : Int
  do_clean : Int
  do_sanitize : Int
  do_appearance : Int
  do_encrypt : pdf_encrypt_method
  dont_regenerate_id : Int
  permissions : Int
  opwd_utf8 : String
  upwd_utf8 : String
  do_preserve_metadata : Int
  do_use_objstms : Int
  deriving DecidableEq, Repr

/-- The arguments of one call `pdf_clean_file(ctx, infile, outfile, password, &opts,
argc - fz_optind, &argv[fz_optind])`. -/
structure CleanCall where
  infile : String
  outfile : String
  password : String
  opts : pdf_write_options
  argc : Int
  argv : List String
  deriving DecidableEq, Repr

/-- What `fz_getopt` does over one command line: `calls` lists, in order, the value
returned and `fz_optarg` for each call made before the one that returns -1, and
`fz_optind` is the value of that global once -1 has been returned.  A value returned is
an option letter, or a character with no arm in the `switch` (such as '?') when
`fz_getopt` rejects the option; `fz_optarg` is read only in the arms of the letters
that take an argument, and is the empty string where `fz_getopt` leaves it NULL. -/
structure GetoptRun where
  calls : List (Char × String)
  fz_optind : Nat
  deriving DecidableEq, Repr

/-- The parts of the library that `pdfclean_main` uses and that are defined elsewhere. -/
structure Env where
  /-- the constant `pdf_default_write_options` -/
  pdf_default_write_options : pdf_write_options
  /-- the value of `sizeof opts.opwd_utf8` (and of `sizeof opts.upwd_utf8`) -/
  pwd_size : Nat
  /-- the helper `fz_atoi` -/
  fz_atoi : String → Int
  /-- the helper `fz_strlcpy`: the string left in a buffer of the given size -/
  fz_strlcpy : String → Nat → String
  /-- whether `fz_new_context` returns a non-NULL context -/
  fz_new_context_ok : Bool
  /-- whether `pdf_clean_file` throws on the given arguments -/
  pdf_clean_file_throws : CleanCall → Bool

/-- How `pdfclean_main` ends: by returning a value, or inside `exit`. -/
inductive Ending where
  | returned (value : Int)
  | exited (status : Int)
  deriving DecidableEq, Repr

/-- The observable result of `pdfclean_main`: how it ended and the call of
`pdf_clean_file` it made, if any. -/
structure MainResult where
  ending : Ending
  cleaned : Option CleanCall
  deriving DecidableEq, Repr

/-! ## libc and arithmetic -/

/-- The statement `x += 1` on a C `int`, in 32-bit two's complement. -/
def int_incr (x : Int) : Int := (x + 1 + 2147483648) % 4294967296 - 2147483648

/-- The libc function `strstr`: the tail of `haystack` that starts at the first
occurrence of `needle`, or `none` (NULL) when there is none. -/
def strstr : List Char → List Char → Option (List Char)
  | [], needle => if needle.isPrefixOf [] then some [] else none
  | c :: cs, needle =>
    if needle.isPrefixOf (c :: cs) then some (c :: cs) else strstr cs needle

/-! ## pdfclean.c -/

/-- The function `usage`: prints the help text and returns 1. -/
def usage : Int := 1

/-- The function `encrypt_method_from_string`; `!strcmp(name, s)` is equality of
C strings. -/
def encrypt_method_from_string (name : String) : pdf_encrypt_method :=
  if name = "rc4-40" then PDF_ENCRYPT_RC4_40
  else if name = "rc4-128" then PDF_ENCRYPT_RC4_128
  else if name = "aes-128" then PDF_ENCRYPT_AES_128
  else if name = "aes-256" then PDF_ENCRYPT_AES_256
  else PDF_ENCRYPT_UNKNOWN

/-- The locals of `pdfclean_main` that the option loop writes. -/
structure ParseState where
  opts : pdf_write_options
  password : String
  deriving DecidableEq, Repr

/-- One pass through the `switch (c)` of the option loop; `none` is the
`default: return usage();` arm. -/
def option_case (env : Env) (c : Char) (fz_optarg : String) (st : ParseState) :
    Option ParseState :=
  if c = 'p' then some { st with password := fz_optarg }
  else if c = 'd' then
    some { st with opts := { st.opts with do_decompress := int_incr st.opts.do_decompress } }
  else if c = 'z' then
    some { st with opts := { st.opts with do_compress := int_incr st.opts.do_compress } }
  else if c = 'f' then
    some { st with opts :=
      { st.opts with do_compress_fonts := int_incr st.opts.do_compress_fonts } }
  else if c = 'i' then
    some { st with opts :=
      { st.opts with do_compress_images := int_incr st.opts.do_compress_images } }
  else if c = 'a' then
    some { st with opts := { st.opts with do_ascii := int_incr st.opts.do_ascii } }
  else if c = 'g' then
    some { st with opts := { st.opts with do_garbage := int_incr st.opts.do_garbage } }
  else if c = 'l' then
    some { st with opts := { st.opts with do_linear := int_incr st.opts.do_linear } }
  else if c = 'c' then
    some { st with opts := { st.opts with do_clean := int_incr st.opts.do_clean } }
  else if c = 's' then
    some { st with opts := { st.opts with do_sanitize := int_incr st.opts.do_sanitize } }
  else if c = 'A' then
    some { st with opts := { st.opts with do_appearance := int_incr st.opts.do_appearance } }
  else if c = 'D' then
    some { st with opts := { st.opts with do_encrypt := PDF_ENCRYPT_NONE } }
  else if c = 'E' then
    some { st with opts :=
      { st.opts with do_encrypt := encrypt_method_from_string fz_optarg } }
  else if c = 'P' then
    some { st with opts := { st.opts with permissions := env.fz_atoi fz_optarg } }
  else if c = 'O' then
    some { st with opts :=
      { st.opts with opwd_utf8 := env.fz_strlcpy fz_optarg env.pwd_size } }
  else if c = 'U' then
    some { st with opts :=
      { st.opts with upwd_utf8 := env.fz_strlcpy fz_optarg env.pwd_size } }
  else if c = 'm' then
    some { st with opts := { st.opts with do_preserve_metadata := 1 } }
  else if c = 'Z' then
    some { st with opts := { st.opts with do_use_objstms := 1 } }
  else none

/-- The loop `while ((c = fz_getopt(...)) != -1) switch (c) ...` over the results of
the successive calls; `none` when an arm returned `usage()`. -/
def option_loop (env : Env) : List (Char × String) → ParseState → Option ParseState
  | [], st => some st
  | (c, fz_optarg) :: rest, st =>
    match option_case env c fz_optarg st with
    | none => none
    | some st1 => option_loop env rest st1

/-- The locals before the loop: `opts = pdf_default_write_options`,
`opts.dont_regenerate_id = 1`, `password = ""`. -/
def initial_state (env : Env) : ParseState :=
  { opts := { env.pdf_default_write_options with dont_regenerate_id := 1 }
    password := "" }

/-- The statement after the loop:
`if ((opts.do_ascii || opts.do_decompress) && !opts.do_compress) opts.do_pretty = 1;`. -/
def derive_pretty (opts : pdf_write_options) : pdf_write_options :=
  if (opts.do_ascii ≠ 0 ∨ opts.do_decompress ≠ 0) ∧ opts.do_compress = 0 then
    { opts with do_pretty := 1 }
  else opts

/-- The options as they stand once the loop and the pretty-printing statement have run;
`none` when the loop returned `usage()`. -/
def parse_options (env : Env) (calls : List (Char × String)) : Option ParseState :=
  match option_loop env calls (initial_state env) with
  | none => none
  | some st => some { st with opts := derive_pretty st.opts }

/-- The test `strstr(s, ".pdf") || strstr(s, ".PDF")` on the second positional
argument. -/
def names_pdf (s : String) : Bool :=
  (strstr s.toList ".pdf".toList).isSome || (strstr s.toList ".PDF".toList).isSome

/-- The function `pdfclean_main`, with `argc` the length of `argv`. -/
def pdfclean_main (env : Env) (run : GetoptRun) (argv : List String) : MainResult :=
  let argc : Int := argv.length
  match parse_options env run.calls with
  | none => { ending := Ending.returned usage, cleaned := none }
  | some st =>
    let fz_optind : Nat := run.fz_optind
    if argc - fz_optind < 1 then
      { ending := Ending.returned usage, cleaned := none }
    else
      let infile := argv.getD fz_optind ""
      let fz_optind := fz_optind + 1
      let takes_out : Bool :=
        decide (argc - fz_optind > 0) && names_pdf (argv.getD fz_optind "")
      let outfile := if takes_out then argv.getD fz_optind "" else "out.pdf"
      let fz_optind := if takes_out then fz_optind + 1 else fz_optind
      if env.fz_new_context_ok = false then
        { ending := Ending.exited 1, cleaned := none }
      else
        let call : CleanCall :=
          { infile := infile, outfile := outfile, password := st.password,
            opts := st.opts, argc := argc - fz_optind, argv := argv.drop fz_optind }
        let errors : Int := if env.pdf_clean_file_throws call then 1 else 0
        { ending := Ending.returned (if errors ≠ 0 then 1 else 0), cleaned := some call }

/-! ## Vocabulary of the statements -/

/-- The option letters that have an arm in the `switch` of `pdfclean_main` (the letters
of the option string "adfgilmp:sczDAE:O:U:P:Z"). -/
def option_letters : List Char :=
  ['a', 'd', 'f', 'g', 'i', 'l', 'm', 'p', 's', 'c', 'z', 'D', 'A', 'E', 'O', 'U', 'P', 'Z']

/-- The letters whose arm is an increment of a field. -/
def counted_letters : List Char := ['d', 'z', 'f', 'i', 'a', 'g', 'l', 'c', 's', 'A']

/-- The field that the arm of a counted letter increments. -/
def counter (k : Char) (o : pdf_write_options) : Int :=
  if k = 'd' then o.do_decompress
  else if k = 'z' then o.do_compress
  else if k = 'f' then o.do_compress_fonts
  else if k = 'i' then o.do_compress_images
  else if k = 'a' then o.do_ascii
  else if k = 'g' then o.do_garbage
  else if k = 'l' then o.do_linear
  else if k = 'c' then o.do_clean
  else if k = 's' then o.do_sanitize
  else if k = 'A' then o.do_appearance
  else 0

/-- How many times `fz_getopt` returned the letter `k`. -/
def occurrences (k : Char) (calls : List (Char × String)) : Nat :=
  (calls.map Prod.fst).count k

/-- The value is a C `int`. -/
def is_int (x : Int) : Prop := -2147483648 ≤ x ∧ x ≤ 2147483647

instance (x : Int) : Decidable (is_int x) := by unfold is_int; infer_instance

/-- The last `-D` or `-E` among the options, if any. -/
def last_encrypt_option (calls : List (Char × String)) : Option (Char × String) :=
  (calls.filter (fun r => r.1 = 'D' || r.1 = 'E')).getLast?

/-- The positional arguments: what is left of `argv` from index `fz_optind` on, once
`fz_getopt` has returned -1. -/
def positionals (run : GetoptRun) (argv : List String) : List String :=
  argv.drop run.fz_optind

/-- The value that the last `-D` / `-E` option gives to `do_encrypt`, starting from
`start`. -/
def encrypt_after (start : pdf_encrypt_method) (calls : List (Char × String)) :
    pdf_encrypt_method :=
  match last_encrypt_option calls with
  | none => start
  | some (c, name) =>
    if c = 'D' then PDF_ENCRYPT_NONE else encrypt_method_from_string name

/-- None of the increments that the option loop performs leaves the range of a C `int`:
each counted field of the default options is an `int`, and stays one after as many
increments as its letter has occurrences. -/
def no_overflow (env : Env) (calls : List (Char × String)) : Prop :=
  ∀ k ∈ counted_letters,
    is_int (counter k env.pdf_default_write_options) ∧
      counter k env.pdf_default_write_options + occurrences k calls ≤ 2147483647

instance (env : Env) (calls : List (Char × String)) : Decidable (no_overflow env calls) := by
  unfold no_overflow; infer_instance

/-- A sample environment for the evaluations on concrete command lines: zeroed default
options with `PDF_ENCRYPT_KEEP`, 128-byte password buffers, a context that can be
created and a `pdf_clean_file` that does not throw. -/
def sample_env : Env :=
  { pdf_default_write_options :=
      { do_pretty := 0, do_ascii := 0, do_compress := 0, do_compress_images := 0,
        do_compress_fonts := 0, do_decompress := 0, do_garbage := 0, do_linear := 0,
        do_clean := 0, do_sanitize := 0, do_appearance := 0,
        do_encrypt := PDF_ENCRYPT_KEEP, dont_regenerate_id := 0, permissions := -1,
        opwd_utf8 := "", upwd_utf8 := "", do_preserve_metadata := 0,
        do_use_objstms := 0 }
    pwd_size := 128
    fz_atoi := fun s => (s.toInt?).getD 0
    fz_strlcpy := fun s n => String.mk (s.toList.take (n - 1))
    fz_new_context_ok := true
    pdf_clean_file_throws := fun _ => false }

/-- The sample environment with a `pdf_clean_file` that throws. -/
def throwing_env : Env := { sample_env with pdf_clean_file_throws := fun _ => true }

/-! ## Lemmas on the option loop -/

theorem encrypt_method_from_string_unknown (name : String)
    (h : name ∉ ["rc4-40", "rc4-128", "aes-128", "aes-256"]) :
    encrypt_method_from_string name = PDF_ENCRYPT_UNKNOWN := by
  simp only [List.mem_cons, List.mem_singleton, List.not_mem_nil, or_false, not_or] at h
  obtain ⟨h1, h2, h3, h4⟩ := h
  simp [encrypt_method_from_string, h1, h2, h3, h4]

theorem int_incr_eq (x : Int) (h1 : -2147483648 ≤ x) (h2 : x < 2147483647) :
    int_incr x = x + 1 := by
  unfold int_incr
  omega

theorem option_case_none (env : Env) (c : Char) (a : String) (st : ParseState)
    (hc : c ∉ option_letters) : option_case env c a st = none := by
  simp only [option_letters, List.mem_cons, List.mem_singleton, List.not_mem_nil,
    or_false, not_or] at hc
  obtain ⟨h1, h2, h3, h4, h5, h6, h7, h8, h9, h10, h11, h12, h13, h14, h15, h16, h17, h18⟩ := hc
  simp [option_case, h1, h2, h3, h4, h5, h6, h7, h8, h9, h10, h11, h12, h13, h14, h15, h16,
    h17, h18]

theorem option_case_isSome (env : Env) (c : Char) (a : String) (st : ParseState) :
    (option_case env c a st).isSome = true ↔ c ∈ option_letters := by
  constructor
  · intro h
    by_contra hc
    rw [option_case_none env c a st hc] at h
    exact absurd h (by simp)
  · intro h
    simp only [option_letters, List.mem_cons, List.mem_singleton, List.not_mem_nil,
      or_false] at h
    rcases h with h | h | h | h | h | h | h | h | h | h | h | h | h | h | h | h | h | h <;>
      subst h <;> rfl

theorem option_case_counter (env : Env) (c : Char) (a : String) (st st1 : ParseState)
    (k : Char) (hk : k ∈ counted_letters) (h : option_case env c a st = some st1) :
    counter k st1.opts = if c = k then int_incr (counter k st.opts) else counter k st.opts := by
  have hc : c ∈ option_letters := by
    rw [← option_case_isSome env c a st, h]; rfl
  simp only [option_letters, List.mem_cons, List.mem_singleton, List.not_mem_nil,
    or_false] at hc
  simp only [counted_letters, List.mem_cons, List.mem_singleton, List.not_mem_nil,
    or_false] at hk
  rcases hk with hk | hk | hk | hk | hk | hk | hk | hk | hk | hk <;> subst hk <;>
    rcases hc with hc | hc | hc | hc | hc | hc | hc | hc | hc | hc | hc | hc | hc | hc | hc | hc | hc | hc <;>
    subst hc <;> cases h <;> simp [counter]

theorem option_case_encrypt (env : Env) (c : Char) (a : String) (st st1 : ParseState)
    (h : option_case env c a st = some st1) :
    st1.opts.do_encrypt =
      if c = 'D' then PDF_ENCRYPT_NONE
      else if c = 'E' then encrypt_method_from_string a
      else st.opts.do_encrypt := by
  have hc : c ∈ option_letters := by
    rw [← option_case_isSome env c a st, h]; rfl
  simp only [option_letters, List.mem_cons, List.mem_singleton, List.not_mem_nil,
    or_false] at hc
  rcases hc with hc | hc | hc | hc | hc | hc | hc | hc | hc | hc | hc | hc | hc | hc | hc | hc | hc | hc <;>
    subst hc <;> cases h <;> simp

theorem option_loop_isSome (env : Env) (calls : List (Char × String)) :
    ∀ st : ParseState,
      (option_loop env calls st).isSome = true ↔ ∀ r ∈ calls, r.1 ∈ option_letters := by
  induction calls with
  | nil => intro st; simp [option_loop]
  | cons r rest ih =>
    intro st
    obtain ⟨c, a⟩ := r
    have hcase := option_case_isSome env c a st
    unfold option_loop
    cases hoc : option_case env c a st with
    | none =>
      rw [hoc] at hcase
      simp only [Option.isSome_none, Bool.false_eq_true, false_iff] at hcase
      simp [hcase]
    | some st1 =>
      rw [hoc] at hcase
      simp only [Option.isSome_some, true_iff] at hcase
      simp [hcase, ih st1]

theorem occurrences_nil (k : Char) : occurrences k [] = 0 := rfl

theorem occurrences_cons (k c : Char) (a : String) (rest : List (Char × String)) :
    occurrences k ((c, a) :: rest) = occurrences k rest + if c = k then 1 else 0 := by
  unfold occurrences
  simp [List.count_cons]

theorem occurrences_perm (k : Char) (l1 l2 : List (Char × String)) (h : l1.Perm l2) :
    occurrences k l1 = occurrences k l2 := by
  unfold occurrences
  exact (h.map Prod.fst).count_eq k

theorem option_loop_counter (env : Env) (k : Char) (hk : k ∈ counted_letters)
    (calls : List (Char × String)) :
    ∀ st st1 : ParseState, option_loop env calls st = some st1 →
      is_int (counter k st.opts) →
      counter k st.opts + occurrences k calls ≤ 2147483647 →
      counter k st1.opts = counter k st.opts + occurrences k calls := by
  induction calls with
  | nil =>
    intro st st1 h _ _
    simp only [option_loop, Option.some.injEq] at h
    subst h
    simp [occurrences_nil]
  | cons r rest ih =>
    intro st st1 h hint hmax
    obtain ⟨c, a⟩ := r
    unfold option_loop at h
    cases hoc : option_case env c a st with
    | none => rw [hoc] at h; exact absurd h (by simp)
    | some st2 =>
      rw [hoc] at h
      simp only at h
      have hstep := option_case_counter env c a st st2 k hk hoc
      rw [occurrences_cons] at hmax ⊢
      unfold is_int at hint
      have hocc : (0 : Int) ≤ (occurrences k rest : Int) := Int.natCast_nonneg _
      by_cases hck : c = k
      · rw [if_pos hck] at hstep
        simp only [hck, if_true, Nat.cast_add, Nat.cast_one] at hmax ⊢
        have hincr := int_incr_eq (counter k st.opts) hint.1 (by omega)
        rw [hincr] at hstep
        have := ih st2 st1 h (by unfold is_int; omega) (by omega)
        omega
      · rw [if_neg hck] at hstep
        simp only [hck, if_false, Nat.cast_add, Nat.cast_zero, add_zero] at hmax ⊢
        have := ih st2 st1 h (by unfold is_int; omega) (by omega)
        omega

theorem last_encrypt_option_cons (c : Char) (a : String) (rest : List (Char × String)) :
    last_encrypt_option ((c, a) :: rest) =
      match last_encrypt_option rest with
      | some r => some r
      | none => if c = 'D' ∨ c = 'E' then some (c, a) else none := by
  unfold last_encrypt_option
  by_cases hc : c = 'D' ∨ c = 'E'
  · rw [List.filter_cons_of_pos (by simpa using hc), List.getLast?_cons]
    cases (List.filter (fun r => decide (r.1 = 'D') || decide (r.1 = 'E')) rest).getLast? <;>
      simp [hc]
  · rw [List.filter_cons_of_neg (by simpa using hc)]
    cases (List.filter (fun r => decide (r.1 = 'D') || decide (r.1 = 'E')) rest).getLast? <;>
      simp [hc]

theorem option_loop_encrypt (env : Env) (calls : List (Char × String)) :
    ∀ st st1 : ParseState, option_loop env calls st = some st1 →
      st1.opts.do_encrypt = encrypt_after st.opts.do_encrypt calls := by
  induction calls with
  | nil =>
    intro st st1 h
    simp only [option_loop, Option.some.injEq] at h
    subst h
    rfl
  | cons r rest ih =>
    intro st st1 h
    obtain ⟨c, a⟩ := r
    unfold option_loop at h
    cases hoc : option_case env c a st with
    | none => rw [hoc] at h; exact absurd h (by simp)
    | some st2 =>
      rw [hoc] at h
      simp only at h
      have hstep := option_case_encrypt env c a st st2 hoc
      have hrest := ih st2 st1 h
      rw [hrest]
      unfold encrypt_after
      rw [last_encrypt_option_cons]
      cases hl : last_encrypt_option rest with
      | some r => rfl
      | none =>
        simp only
        rw [hstep]
        by_cases hD : c = 'D'
        · simp [hD]
        · by_cases hE : c = 'E'
          · subst hE; simp
          · simp [hD, hE]

theorem derive_pretty_counter (k : Char) (o : pdf_write_options) :
    counter k (derive_pretty o) = counter k o := by
  unfold derive_pretty
  split <;> rfl

theorem derive_pretty_encrypt (o : pdf_write_options) :
    (derive_pretty o).do_encrypt = o.do_encrypt := by
  unfold derive_pretty
  split <;> rfl

theorem strstr_isSome (haystack needle : List Char) :
    (strstr haystack needle).isSome = true ↔ needle <:+: haystack := by
  induction haystack with
  | nil =>
    unfold strstr
    cases needle <;> simp
  | cons c cs ih =>
    unfold strstr
    rw [List.infix_cons_iff]
    by_cases hp : needle.isPrefixOf (c :: cs) = true
    · rw [if_pos hp]
      simp [List.isPrefixOf_iff_prefix.mp hp]
    · rw [if_neg hp, ih]
      have : ¬ needle <+: c :: cs := fun h => hp (List.isPrefixOf_iff_prefix.mpr h)
      simp [this]

theorem names_pdf_iff (s : String) :
    names_pdf s = true ↔ (".pdf".toList <:+: s.toList ∨ ".PDF".toList <:+: s.toList) := by
  unfold names_pdf
  rw [Bool.or_eq_true, strstr_isSome, strstr_isSome]

/-! ## Lemmas on `pdfclean_main` -/

theorem parse_options_eq_some (env : Env) (calls : List (Char × String)) (st : ParseState)
    (h : parse_options env calls = some st) :
    ∃ st0, option_loop env calls (initial_state env) = some st0 ∧
      st.opts = derive_pretty st0.opts ∧ st.password = st0.password := by
  unfold parse_options at h
  cases hl : option_loop env calls (initial_state env) with
  | none => rw [hl] at h; exact absurd h (by simp)
  | some st0 =>
    rw [hl] at h
    simp only [Option.some.injEq] at h
    subst h
    exact ⟨st0, rfl, rfl, rfl⟩

theorem parse_options_isSome (env : Env) (calls : List (Char × String)) :
    (parse_options env calls).isSome = true ↔ ∀ r ∈ calls, r.1 ∈ option_letters := by
  rw [← option_loop_isSome env calls (initial_state env)]
  unfold parse_options
  cases option_loop env calls (initial_state env) <;> simp

theorem pdfclean_main_usage_option (env : Env) (run : GetoptRun) (argv : List String)
    (h : parse_options env run.calls = none) :
    pdfclean_main env run argv = { ending := Ending.returned 1, cleaned := none } := by
  unfold pdfclean_main
  simp only [h]
  rfl

theorem pdfclean_main_usage_input (env : Env) (run : GetoptRun) (argv : List String)
    (h : (positionals run argv).length < 1) :
    pdfclean_main env run argv = { ending := Ending.returned 1, cleaned := none } := by
  have hlt : (argv.length : Int) - (run.fz_optind : Int) < 1 := by
    simp only [positionals, List.length_drop] at h
    omega
  unfold pdfclean_main
  cases parse_options env run.calls with
  | none => rfl
  | some st => simp only [hlt, if_true]; rfl

theorem pdfclean_main_exit (env : Env) (run : GetoptRun) (argv : List String)
    (st : ParseState) (h : parse_options env run.calls = some st)
    (hpos : 1 ≤ (positionals run argv).length) (hctx : env.fz_new_context_ok = false) :
    pdfclean_main env run argv = { ending := Ending.exited 1, cleaned := none } := by
  have hlt : ¬ (argv.length : Int) - (run.fz_optind : Int) < 1 := by
    simp only [positionals, List.length_drop] at hpos
    omega
  unfold pdfclean_main
  simp only [h, hlt, if_false, hctx, if_true]

theorem pdfclean_main_reach (env : Env) (run : GetoptRun) (argv : List String)
    (st : ParseState) (h : parse_options env run.calls = some st)
    (hpos : 1 ≤ (positionals run argv).length) (hctx : env.fz_new_context_ok = true) :
    ∃ call : CleanCall,
      pdfclean_main env run argv =
        { ending := Ending.returned (if env.pdf_clean_file_throws call = true then 1 else 0),
          cleaned := some call } ∧
      call.opts = st.opts ∧ call.password = st.password ∧
      call.infile = argv.getD run.fz_optind "" ∧
      call.outfile =
        (if 2 ≤ (positionals run argv).length ∧ names_pdf (argv.getD (run.fz_optind + 1) "") = true
          then argv.getD (run.fz_optind + 1) "" else "out.pdf") ∧
      call.argv =
        (if 2 ≤ (positionals run argv).length ∧ names_pdf (argv.getD (run.fz_optind + 1) "") = true
          then argv.drop (run.fz_optind + 2) else argv.drop (run.fz_optind + 1)) ∧
      call.argc = (call.argv.length : Int) := by
  have hlen : run.fz_optind + 1 ≤ argv.length := by
    simp only [positionals, List.length_drop] at hpos
    omega
  have hlt : ¬ (argv.length : Int) - (run.fz_optind : Int) < 1 := by omega
  by_cases htake : 2 ≤ (positionals run argv).length ∧
      names_pdf (argv.getD (run.fz_optind + 1) "") = true
  · have h2 : run.fz_optind + 2 ≤ argv.length := by
      have := htake.1
      simp only [positionals, List.length_drop] at this
      omega
    have hgt : (argv.length : Int) - ((run.fz_optind + 1 : Nat) : Int) > 0 := by
      push_cast; omega
    refine ⟨{ infile := argv.getD run.fz_optind "",
              outfile := argv.getD (run.fz_optind + 1) "",
              password := st.password, opts := st.opts,
              argc := (argv.length : Int) - ((run.fz_optind + 1 + 1 : Nat) : Int),
              argv := argv.drop (run.fz_optind + 1 + 1) }, ?_, rfl, rfl, rfl, ?_, ?_, ?_⟩
    · unfold pdfclean_main
      simp only [h, hlt, if_false, hctx, hgt, htake.2, decide_True, Bool.and_self, if_true]
      simp
    · simp only [htake, and_self, if_true]
    · simp only [htake, and_self, if_true]
    · simp only [List.length_drop]
      push_cast
      omega
  · have hno : (decide ((argv.length : Int) - ((run.fz_optind + 1 : Nat) : Int) > 0) &&
        names_pdf (argv.getD (run.fz_optind + 1) "")) = false := by
      rw [Bool.and_eq_false_iff]
      by_cases hn : names_pdf (argv.getD (run.fz_optind + 1) "") = true
      · left
        have : ¬ 2 ≤ (positionals run argv).length := fun h2 => htake ⟨h2, hn⟩
        simp only [positionals, List.length_drop] at this
        simp only [decide_eq_false_iff_not]
        push_cast
        omega
      · right
        simpa using hn
    refine ⟨{ infile := argv.getD run.fz_optind "", outfile := "out.pdf",
              password := st.password, opts := st.opts,
              argc := (argv.length : Int) - ((run.fz_optind + 1 : Nat) : Int),
              argv := argv.drop (run.fz_optind + 1) }, ?_, rfl, rfl, rfl, ?_, ?_, ?_⟩
    · unfold pdfclean_main
      simp only [h, hlt, if_false, hctx, hno]
      simp
    · simp only [htake, if_false]
    · simp only [htake, if_false]
    · simp only [List.length_drop]
      push_cast
      omega

theorem pdfclean_main_cleaned (env : Env) (run : GetoptRun) (argv : List String)
    (call : CleanCall) (h : (pdfclean_main env run argv).cleaned = some call) :
    ∃ st, parse_options env run.calls = some st ∧ 1 ≤ (positionals run argv).length ∧
      env.fz_new_context_ok = true := by
  cases hp : parse_options env run.calls with
  | none =>
    rw [pdfclean_main_usage_option env run argv hp] at h
    exact absurd h (by simp)
  | some st =>
    by_cases hpos : 1 ≤ (positionals run argv).length
    · cases hctx : env.fz_new_context_ok with
      | false =>
        rw [pdfclean_main_exit env run argv st hp hpos hctx] at h
        exact absurd h (by simp)
      | true => exact ⟨st, rfl, hpos, rfl⟩
    · rw [pdfclean_main_usage_input env run argv (by omega)] at h
      exact absurd h (by simp)

theorem drop_getD_cons (l : List String) (n : Nat) (h : n < l.length) :
    l.drop n = l.getD n "" :: l.drop (n + 1) := by
  rw [List.getD_eq_getElem l "" h]
  exact List.drop_eq_getElem_cons h

theorem pdfclean_main_call (env : Env) (run : GetoptRun) (argv : List String)
    (call : CleanCall) (h : (pdfclean_main env run argv).cleaned = some call) :
    ∃ st, parse_options env run.calls = some st ∧ env.fz_new_context_ok = true ∧
      (pdfclean_main env run argv).ending =
        Ending.returned (if env.pdf_clean_file_throws call = true then 1 else 0) ∧
      call.opts = st.opts ∧ call.password = st.password ∧
      ∃ input rest, positionals run argv = input :: rest ∧ call.infile = input ∧
        call.outfile =
          (match rest with
            | [] => "out.pdf"
            | s :: _ => if names_pdf s = true then s else "out.pdf") ∧
        call.argv =
          (match rest with
            | [] => []
            | s :: pages => if names_pdf s = true then pages else s :: pages) ∧
        call.argc = (call.argv.length : Int) := by
  obtain ⟨st, hp, hpos, hctx⟩ := pdfclean_main_cleaned env run argv call h
  obtain ⟨call1, hmain, hopts, hpw, hin, hout, hargv, hargc⟩ :=
    pdfclean_main_reach env run argv st hp hpos hctx
  have hcc : call1 = call := by
    rw [hmain] at h
    simpa using h
  subst hcc
  refine ⟨st, hp, hctx, by rw [hmain], hopts, hpw, ?_⟩
  have hlen : run.fz_optind < argv.length := by
    simp only [positionals, List.length_drop] at hpos
    omega
  have hdrop : positionals run argv =
      argv.getD run.fz_optind "" :: argv.drop (run.fz_optind + 1) :=
    drop_getD_cons argv run.fz_optind hlen
  refine ⟨argv.getD run.fz_optind "", argv.drop (run.fz_optind + 1), hdrop, hin, ?_, ?_, hargc⟩
  · rw [hout]
    by_cases h2 : run.fz_optind + 1 < argv.length
    · have hd2 := drop_getD_cons argv (run.fz_optind + 1) h2
      have hl2 : 2 ≤ (positionals run argv).length := by
        simp only [positionals, List.length_drop]; omega
      rw [hd2]
      simp only [hl2, true_and]
    · have hnil : argv.drop (run.fz_optind + 1) = [] := by
        apply List.drop_eq_nil_of_le; omega
      have hl2 : ¬ 2 ≤ (positionals run argv).length := by
        simp only [positionals, List.length_drop]; omega
      rw [hnil]
      simp only [hl2, false_and, if_false]
  · rw [hargv]
    by_cases h2 : run.fz_optind + 1 < argv.length
    · have hd2 := drop_getD_cons argv (run.fz_optind + 1) h2
      have hl2 : 2 ≤ (positionals run argv).length := by
        simp only [positionals, List.length_drop]; omega
      rw [hd2]
      simp only [hl2, true_and]
    · have hnil : argv.drop (run.fz_optind + 1) = [] := by
        apply List.drop_eq_nil_of_le; omega
      have hl2 : ¬ 2 ≤ (positionals run argv).length := by
        simp only [positionals, List.length_drop]; omega
      rw [hnil]
      simp only [hl2, false_and, if_false]

theorem parse_options_counter (env : Env) (calls : List (Char × String)) (st : ParseState)
    (k : Char) (hk : k ∈ counted_letters) (h : parse_options env calls = some st)
    (hint : is_int (counter k env.pdf_default_write_options))
    (hmax : counter k env.pdf_default_write_options + occurrences k calls ≤ 2147483647) :
    counter k st.opts = counter k env.pdf_default_write_options + occurrences k calls := by
  obtain ⟨st0, hloop, hopts, _⟩ := parse_options_eq_some env calls st h
  rw [hopts, derive_pretty_counter]
  exact option_loop_counter env k hk calls (initial_state env) st0 hloop hint hmax

theorem option_case_pretty (env : Env) (c : Char) (a : String) (st st1 : ParseState)
    (h : option_case env c a st = some st1) : st1.opts.do_pretty = st.opts.do_pretty := by
  have hc : c ∈ option_letters := by
    rw [← option_case_isSome env c a st, h]; rfl
  simp only [option_letters, List.mem_cons, List.mem_singleton, List.not_mem_nil,
    or_false] at hc
  rcases hc with hc | hc | hc | hc | hc | hc | hc | hc | hc | hc | hc | hc | hc | hc | hc | hc | hc | hc <;>
    subst hc <;> cases h <;> rfl

theorem option_loop_pretty (env : Env) (calls : List (Char × String)) :
    ∀ st st1 : ParseState, option_loop env calls st = some st1 →
      st1.opts.do_pretty = st.opts.do_pretty := by
  induction calls with
  | nil =>
    intro st st1 h
    simp only [option_loop, Option.some.injEq] at h
    subst h
    rfl
  | cons r rest ih =>
    intro st st1 h
    obtain ⟨c, a⟩ := r
    unfold option_loop at h
    cases hoc : option_case env c a st with
    | none => rw [hoc] at h; exact absurd h (by simp)
    | some st2 =>
      rw [hoc] at h
      simp only at h
      rw [ih st2 st1 h, option_case_pretty env c a st st2 hoc]

theorem derive_pretty_pretty (o : pdf_write_options) :
    (derive_pretty o).do_pretty =
      if (o.do_ascii ≠ 0 ∨ o.do_decompress ≠ 0) ∧ o.do_compress = 0 then 1
      else o.do_pretty := by
  unfold derive_pretty
  split <;> rfl

theorem parse_options_pretty (env : Env) (calls : List (Char × String)) (st : ParseState)
    (h : parse_options env calls = some st) :
    st.opts.do_pretty =
      if (st.opts.do_ascii ≠ 0 ∨ st.opts.do_decompress ≠ 0) ∧ st.opts.do_compress = 0 then 1
      else env.pdf_default_write_options.do_pretty := by
  obtain ⟨st0, hloop, hopts, _⟩ := parse_options_eq_some env calls st h
  have hp := option_loop_pretty env calls (initial_state env) st0 hloop
  have ha : (derive_pretty st0.opts).do_ascii = st0.opts.do_ascii :=
    derive_pretty_counter 'a' st0.opts
  have hd : (derive_pretty st0.opts).do_decompress = st0.opts.do_decompress :=
    derive_pretty_counter 'd' st0.opts
  have hz : (derive_pretty st0.opts).do_compress = st0.opts.do_compress :=
    derive_pretty_counter 'z' st0.opts
  rw [hopts, ha, hd, hz, derive_pretty_pretty, hp]
  rfl

/-! ## The claims -/

/-- C4: `encrypt_method_from_string` maps exactly the names "rc4-40", "rc4-128",
"aes-128" and "aes-256" to `PDF_ENCRYPT_RC4_40`, `PDF_ENCRYPT_RC4_128`,
`PDF_ENCRYPT_AES_128` and `PDF_ENCRYPT_AES_256`, maps every other string to
`PDF_ENCRYPT_UNKNOWN` (among them the empty string, "none", "AES-256" and names with a
leading or trailing extra character), and never returns `PDF_ENCRYPT_NONE`. -/
theorem encrypt_method_from_string_spec (name : String) :
    (encrypt_method_from_string name = PDF_ENCRYPT_RC4_40 ↔ name = "rc4-40") ∧
    (encrypt_method_from_string name = PDF_ENCRYPT_RC4_128 ↔ name = "rc4-128") ∧
    (encrypt_method_from_string name = PDF_ENCRYPT_AES_128 ↔ name = "aes-128") ∧
    (encrypt_method_from_string name = PDF_ENCRYPT_AES_256 ↔ name = "aes-256") ∧
    (encrypt_method_from_string name = PDF_ENCRYPT_UNKNOWN ↔
      name ∉ ["rc4-40", "rc4-128", "aes-128", "aes-256"]) ∧
    encrypt_method_from_string name ≠ PDF_ENCRYPT_NONE ∧
    encrypt_method_from_string "" = PDF_ENCRYPT_UNKNOWN ∧
    encrypt_method_from_string "none" = PDF_ENCRYPT_UNKNOWN ∧
    encrypt_method_from_string "AES-256" = PDF_ENCRYPT_UNKNOWN ∧
    encrypt_method_from_string " aes-256" = PDF_ENCRYPT_UNKNOWN ∧
    encrypt_method_from_string "aes-256 " = PDF_ENCRYPT_UNKNOWN ∧
    encrypt_method_from_string "rc4-1280" = PDF_ENCRYPT_UNKNOWN := by
  refine ⟨?_, ?_, ?_, ?_, ?_, ?_, by decide, by decide, by decide, by decide, by decide,
    by decide⟩ <;>
  · unfold encrypt_method_from_string
    split_ifs with h1 h2 h3 h4 <;> simp_all

/-- C1: when `-d` and `-a` are both requested at least once and `-z` never, the write
options handed to `pdf_clean_file` have `do_pretty = 1` (the default options having a
non-negative `do_ascii` and a zero `do_compress`, and no increment overflowing an
`int`). -/
theorem pretty_enabled_under_decompress_and_ascii (env : Env) (run : GetoptRun)
    (argv : List String) (call : CleanCall)
    (hfit : no_overflow env run.calls)
    (ha0 : 0 ≤ env.pdf_default_write_options.do_ascii)
    (hz0 : env.pdf_default_write_options.do_compress = 0)
    (_hd : 1 ≤ occurrences 'd' run.calls) (ha : 1 ≤ occurrences 'a' run.calls)
    (hz : occurrences 'z' run.calls = 0)
    (hcall : (pdfclean_main env run argv).cleaned = some call) :
    call.opts.do_pretty = 1 := by
  obtain ⟨st, hp, _, _, hopts, _⟩ := pdfclean_main_call env run argv call hcall
  have hda := parse_options_counter env run.calls st 'a' (by decide) hp
    (hfit 'a' (by decide)).1 (hfit 'a' (by decide)).2
  have hdd := parse_options_counter env run.calls st 'd' (by decide) hp
    (hfit 'd' (by decide)).1 (hfit 'd' (by decide)).2
  have hdz := parse_options_counter env run.calls st 'z' (by decide) hp
    (hfit 'z' (by decide)).1 (hfit 'z' (by decide)).2
  have ea : counter 'a' st.opts = st.opts.do_ascii := rfl
  have ed : counter 'd' st.opts = st.opts.do_decompress := rfl
  have ez : counter 'z' st.opts = st.opts.do_compress := rfl
  have fa : counter 'a' env.pdf_default_write_options =
      env.pdf_default_write_options.do_ascii := rfl
  have fd : counter 'd' env.pdf_default_write_options =
      env.pdf_default_write_options.do_decompress := rfl
  have fz : counter 'z' env.pdf_default_write_options =
      env.pdf_default_write_options.do_compress := rfl
  rw [ea, fa] at hda
  rw [ed, fd] at hdd
  rw [ez, fz, hz0, hz] at hdz
  rw [hopts, parse_options_pretty env run.calls st hp]
  have hcond : (st.opts.do_ascii ≠ 0 ∨ st.opts.do_decompress ≠ 0) ∧ st.opts.do_compress = 0 := by
    refine ⟨Or.inl ?_, by simpa using hdz⟩
    have : (1 : Int) ≤ (occurrences 'a' run.calls : Int) := by exact_mod_cast ha
    omega
  rw [if_pos hcond]

/-- C1, at `mutool clean -d -a in.pdf`: the hypotheses hold and `pdf_clean_file` is
called with `do_pretty = 1`. -/
theorem pretty_enabled_under_decompress_and_ascii_witness :
    ∃ call, (pdfclean_main sample_env { calls := [('d', ""), ('a', "")], fz_optind := 3 }
        ["clean", "-d", "-a", "in.pdf"]).cleaned = some call ∧
      call.opts.do_pretty = 1 := by
  cases h : (pdfclean_main sample_env { calls := [('d', ""), ('a', "")], fz_optind := 3 }
      ["clean", "-d", "-a", "in.pdf"]).cleaned with
  | none => exact absurd h (by decide)
  | some call =>
    exact ⟨call, rfl, pretty_enabled_under_decompress_and_ascii sample_env _ _ call
      (by decide) (by decide) (by decide) (by decide) (by decide) (by decide) h⟩

/-- C2, refuted at `mutool clean -d in.pdf`: `-a` does not occur, the default `do_pretty`
is 0, and `pdf_clean_file` is called with `do_pretty = 1`. -/
theorem pretty_enabled_by_decompress_alone :
    occurrences 'a' [('d', "")] = 0 ∧
    sample_env.pdf_default_write_options.do_pretty = 0 ∧
    (parse_options sample_env [('d', "")]).map (fun st => st.opts.do_pretty) = some 1 ∧
    (pdfclean_main sample_env { calls := [('d', "")], fz_optind := 2 }
      ["clean", "-d", "in.pdf"]).cleaned.map (fun call => call.opts.do_pretty) = some 1 := by
  decide

/-- C2 as amended: with zeroed defaults for `do_ascii`, `do_decompress` and `do_compress`,
a default `do_pretty` other than 1 and no increment overflowing an `int`, option parsing
ends with `do_pretty = 1` exactly when `-d` or `-a` occurs at least once and `-z` does
not occur. -/
theorem pretty_enabled_iff (env : Env) (calls : List (Char × String)) (st : ParseState)
    (hfit : no_overflow env calls)
    (hp0 : env.pdf_default_write_options.do_pretty ≠ 1)
    (ha0 : env.pdf_default_write_options.do_ascii = 0)
    (hd0 : env.pdf_default_write_options.do_decompress = 0)
    (hz0 : env.pdf_default_write_options.do_compress = 0)
    (hp : parse_options env calls = some st) :
    st.opts.do_pretty = 1 ↔
      (1 ≤ occurrences 'd' calls ∨ 1 ≤ occurrences 'a' calls) ∧ occurrences 'z' calls = 0 := by
  have hda := parse_options_counter env calls st 'a' (by decide) hp
    (hfit 'a' (by decide)).1 (hfit 'a' (by decide)).2
  have hdd := parse_options_counter env calls st 'd' (by decide) hp
    (hfit 'd' (by decide)).1 (hfit 'd' (by decide)).2
  have hdz := parse_options_counter env calls st 'z' (by decide) hp
    (hfit 'z' (by decide)).1 (hfit 'z' (by decide)).2
  have ea : counter 'a' st.opts = st.opts.do_ascii := rfl
  have ed : counter 'd' st.opts = st.opts.do_decompress := rfl
  have ez : counter 'z' st.opts = st.opts.do_compress := rfl
  have fa : counter 'a' env.pdf_default_write_options =
      env.pdf_default_write_options.do_ascii := rfl
  have fd : counter 'd' env.pdf_default_write_options =
      env.pdf_default_write_options.do_decompress := rfl
  have fz : counter 'z' env.pdf_default_write_options =
      env.pdf_default_write_options.do_compress := rfl
  rw [ea, fa, ha0] at hda
  rw [ed, fd, hd0] at hdd
  rw [ez, fz, hz0] at hdz
  rw [parse_options_pretty env calls st hp, hda, hdd, hdz]
  constructor
  · intro h
    split_ifs at h with hc
    · obtain ⟨hor, hzz⟩ := hc
      refine ⟨?_, by omega⟩
      rcases hor with h1 | h1
      · right; omega
      · left; omega
    · exact absurd h hp0
  · rintro ⟨hor, hzz⟩
    rw [if_pos]
    refine ⟨?_, by omega⟩
    rcases hor with h1 | h1
    · right; omega
    · left; omega

/-- C2 as amended, at the options of `mutool clean -a in.pdf`: the hypotheses hold and
parsing ends with `do_pretty = 1` although `-d` does not occur. -/
theorem pretty_enabled_iff_witness :
    ∃ st, parse_options sample_env [('a', "")] = some st ∧ st.opts.do_pretty = 1 ∧
      occurrences 'd' [('a', "")] = 0 := by
  cases h : parse_options sample_env [('a', "")] with
  | none => exact absurd h (by decide)
  | some st =>
    exact ⟨st, rfl,
      (pretty_enabled_iff sample_env [('a', "")] st (by decide) (by decide) (by decide)
        (by decide) (by decide) h).mpr (by decide), by decide⟩

/-- C3: when `-z` is requested at least once, wherever it stands among the options, the
write options handed to `pdf_clean_file` keep the `do_pretty` of the default write
options; those options are the result of the pretty-printing statement applied once to
the options left by the whole option loop (the default `do_compress` being
non-negative and no increment overflowing an `int`). -/
theorem pretty_left_default_under_compress (env : Env) (run : GetoptRun)
    (argv : List String) (call : CleanCall)
    (hfit : no_overflow env run.calls)
    (hz0 : 0 ≤ env.pdf_default_write_options.do_compress)
    (hz : 1 ≤ occurrences 'z' run.calls)
    (hcall : (pdfclean_main env run argv).cleaned = some call) :
    call.opts.do_pretty = env.pdf_default_write_options.do_pretty ∧
    ∃ st0, option_loop env run.calls (initial_state env) = some st0 ∧
      call.opts = derive_pretty st0.opts := by
  obtain ⟨st, hp, _, _, hopts, _⟩ := pdfclean_main_call env run argv call hcall
  have hdz := parse_options_counter env run.calls st 'z' (by decide) hp
    (hfit 'z' (by decide)).1 (hfit 'z' (by decide)).2
  have ez : counter 'z' st.opts = st.opts.do_compress := rfl
  have fz : counter 'z' env.pdf_default_write_options =
      env.pdf_default_write_options.do_compress := rfl
  rw [ez, fz] at hdz
  constructor
  · rw [hopts, parse_options_pretty env run.calls st hp]
    have hne : st.opts.do_compress ≠ 0 := by
      have : (1 : Int) ≤ (occurrences 'z' run.calls : Int) := by exact_mod_cast hz
      omega
    rw [if_neg (fun hc => hne hc.2)]
  · obtain ⟨st0, hloop, hst, _⟩ := parse_options_eq_some env run.calls st hp
    exact ⟨st0, hloop, by rw [hopts, hst]⟩

/-- C3, at `mutool clean -z -d -a in.pdf` and at `mutool clean -d -a -z in.pdf`: the
hypotheses hold and `pdf_clean_file` is called with the default `do_pretty`, 0. -/
theorem pretty_left_default_under_compress_witness :
    (∃ call, (pdfclean_main sample_env
        { calls := [('z', ""), ('d', ""), ('a', "")], fz_optind := 4 }
        ["clean", "-z", "-d", "-a", "in.pdf"]).cleaned = some call ∧
      call.opts.do_pretty = 0) ∧
    (∃ call, (pdfclean_main sample_env
        { calls := [('d', ""), ('a', ""), ('z', "")], fz_optind := 4 }
        ["clean", "-d", "-a", "-z", "in.pdf"]).cleaned = some call ∧
      call.opts.do_pretty = 0) := by
  constructor
  · cases h : (pdfclean_main sample_env
        { calls := [('z', ""), ('d', ""), ('a', "")], fz_optind := 4 }
        ["clean", "-z", "-d", "-a", "in.pdf"]).cleaned with
    | none => exact absurd h (by decide)
    | some call =>
      exact ⟨call, rfl, (pretty_left_default_under_compress sample_env _ _ call
        (by decide) (by decide) (by decide) h).1⟩
  · cases h : (pdfclean_main sample_env
        { calls := [('d', ""), ('a', ""), ('z', "")], fz_optind := 4 }
        ["clean", "-d", "-a", "-z", "in.pdf"]).cleaned with
    | none => exact absurd h (by decide)
    | some call =>
      exact ⟨call, rfl, (pretty_left_default_under_compress sample_env _ _ call
        (by decide) (by decide) (by decide) h).1⟩

/-- C5, refuted at `mutool clean -ggggg in.pdf`: the default `do_garbage` is 0 and
`pdf_clean_file` is called with `do_garbage = 5`, which is not within 0..4. -/
theorem garbage_level_five :
    sample_env.pdf_default_write_options.do_garbage = 0 ∧
    ∃ call, (pdfclean_main sample_env { calls := List.replicate 5 ('g', ""), fz_optind := 2 }
        ["clean", "-ggggg", "in.pdf"]).cleaned = some call ∧
      call.opts.do_garbage = 5 ∧
      ¬ (0 ≤ call.opts.do_garbage ∧ call.opts.do_garbage ≤ 4) := by
  refine ⟨by decide, ?_⟩
  have h5 : (pdfclean_main sample_env { calls := List.replicate 5 ('g', ""), fz_optind := 2 }
      ["clean", "-ggggg", "in.pdf"]).cleaned.map (fun call => call.opts.do_garbage) =
      some 5 := by decide
  cases h : (pdfclean_main sample_env { calls := List.replicate 5 ('g', ""), fz_optind := 2 }
      ["clean", "-ggggg", "in.pdf"]).cleaned with
  | none => exact absurd h (by decide)
  | some call =>
    rw [h] at h5
    simp only [Option.map_some', Option.some.injEq] at h5
    exact ⟨call, rfl, h5, by rw [h5]; decide⟩

/-- C5 as amended: starting from a default `do_garbage` of 0, and with at most 2^31 - 1
occurrences of `-g`, the `do_garbage` handed to `pdf_clean_file` is the number of
occurrences of `-g`; so it is never negative, and it is at most 4 exactly when `-g`
occurs at most four times. -/
theorem garbage_level_counts (env : Env) (run : GetoptRun) (argv : List String)
    (call : CleanCall)
    (hg0 : env.pdf_default_write_options.do_garbage = 0)
    (hmax : occurrences 'g' run.calls ≤ 2147483647)
    (hcall : (pdfclean_main env run argv).cleaned = some call) :
    call.opts.do_garbage = (occurrences 'g' run.calls : Int) ∧
    0 ≤ call.opts.do_garbage ∧
    (call.opts.do_garbage ≤ 4 ↔ occurrences 'g' run.calls ≤ 4) := by
  obtain ⟨st, hp, _, _, hopts, _⟩ := pdfclean_main_call env run argv call hcall
  have fg : counter 'g' env.pdf_default_write_options =
      env.pdf_default_write_options.do_garbage := rfl
  have hdg := parse_options_counter env run.calls st 'g' (by decide) hp
    (by rw [fg, hg0]; decide) (by rw [fg, hg0]; omega)
  have eg : counter 'g' st.opts = st.opts.do_garbage := rfl
  rw [eg, fg, hg0] at hdg
  rw [hopts, hdg]
  refine ⟨by omega, by omega, by omega⟩

/-- C5 as amended, at `mutool clean -gggg in.pdf`: the hypotheses hold and
`pdf_clean_file` is called with `do_garbage = 4`. -/
theorem garbage_level_counts_witness :
    ∃ call, (pdfclean_main sample_env { calls := List.replicate 4 ('g', ""), fz_optind := 2 }
        ["clean", "-gggg", "in.pdf"]).cleaned = some call ∧
      call.opts.do_garbage = 4 := by
  cases h : (pdfclean_main sample_env { calls := List.replicate 4 ('g', ""), fz_optind := 2 }
      ["clean", "-gggg", "in.pdf"]).cleaned with
  | none => exact absurd h (by decide)
  | some call =>
    exact ⟨call, rfl, (garbage_level_counts sample_env _ _ call (by decide) (by decide) h).1⟩

/-- C6: for options that are all recognised, and with no increment overflowing an `int`,
option parsing succeeds and leaves each of `do_decompress`, `do_compress`,
`do_compress_fonts`, `do_compress_images`, `do_ascii`, `do_garbage`, `do_linear`,
`do_clean`, `do_sanitize`, `do_appearance` equal to its default plus the number of
occurrences of its letter (d, z, f, i, a, g, l, c, s, A); the same options in any other
order give the same ten values. -/
theorem repeated_flags_are_counted (env : Env) (calls : List (Char × String))
    (hrec : ∀ r ∈ calls, r.1 ∈ option_letters) (hfit : no_overflow env calls) :
    ∃ st, parse_options env calls = some st ∧
      st.opts.do_decompress =
        env.pdf_default_write_options.do_decompress + occurrences 'd' calls ∧
      st.opts.do_compress =
        env.pdf_default_write_options.do_compress + occurrences 'z' calls ∧
      st.opts.do_compress_fonts =
        env.pdf_default_write_options.do_compress_fonts + occurrences 'f' calls ∧
      st.opts.do_compress_images =
        env.pdf_default_write_options.do_compress_images + occurrences 'i' calls ∧
      st.opts.do_ascii =
        env.pdf_default_write_options.do_ascii + occurrences 'a' calls ∧
      st.opts.do_garbage =
        env.pdf_default_write_options.do_garbage + occurrences 'g' calls ∧
      st.opts.do_linear =
        env.pdf_default_write_options.do_linear + occurrences 'l' calls ∧
      st.opts.do_clean =
        env.pdf_default_write_options.do_clean + occurrences 'c' calls ∧
      st.opts.do_sanitize =
        env.pdf_default_write_options.do_sanitize + occurrences 's' calls ∧
      st.opts.do_appearance =
        env.pdf_default_write_options.do_appearance + occurrences 'A' calls ∧
      ∀ calls2 : List (Char × String), calls2.Perm calls →
        ∃ st2, parse_options env calls2 = some st2 ∧
          st2.opts.do_decompress = st.opts.do_decompress ∧
          st2.opts.do_compress = st.opts.do_compress ∧
          st2.opts.do_compress_fonts = st.opts.do_compress_fonts ∧
          st2.opts.do_compress_images = st.opts.do_compress_images ∧
          st2.opts.do_ascii = st.opts.do_ascii ∧
          st2.opts.do_garbage = st.opts.do_garbage ∧
          st2.opts.do_linear = st.opts.do_linear ∧
          st2.opts.do_clean = st.opts.do_clean ∧
          st2.opts.do_sanitize = st.opts.do_sanitize ∧
          st2.opts.do_appearance = st.opts.do_appearance := by
  have hsome := (parse_options_isSome env calls).mpr hrec
  obtain ⟨st, hp⟩ := Option.isSome_iff_exists.mp hsome
  have key : ∀ k ∈ counted_letters,
      counter k st.opts = counter k env.pdf_default_write_options + occurrences k calls :=
    fun k hk => parse_options_counter env calls st k hk hp (hfit k hk).1 (hfit k hk).2
  refine ⟨st, hp, key 'd' (by decide), key 'z' (by decide), key 'f' (by decide),
    key 'i' (by decide), key 'a' (by decide), key 'g' (by decide), key 'l' (by decide),
    key 'c' (by decide), key 's' (by decide), key 'A' (by decide), ?_⟩
  intro calls2 hperm
  have hrec2 : ∀ r ∈ calls2, r.1 ∈ option_letters := fun r hr => hrec r (hperm.mem_iff.mp hr)
  have hsome2 := (parse_options_isSome env calls2).mpr hrec2
  obtain ⟨st2, hp2⟩ := Option.isSome_iff_exists.mp hsome2
  have key2 : ∀ k ∈ counted_letters, counter k st2.opts = counter k st.opts := by
    intro k hk
    have hocc := occurrences_perm k calls2 calls hperm
    rw [key k hk, ← hocc]
    exact parse_options_counter env calls2 st2 k hk hp2 (hfit k hk).1
      (by rw [hocc]; exact (hfit k hk).2)
  exact ⟨st2, hp2, key2 'd' (by decide), key2 'z' (by decide), key2 'f' (by decide),
    key2 'i' (by decide), key2 'a' (by decide), key2 'g' (by decide), key2 'l' (by decide),
    key2 'c' (by decide), key2 's' (by decide), key2 'A' (by decide)⟩

/-- C6, at the options of `-g`, `-gg`, `-ggg`, `-gggg`, `-A` and `-AA` with zeroed
defaults: the hypotheses hold, the garbage levels are 1, 2, 3, 4 and the appearance
modes 1 and 2. -/
theorem repeated_flags_are_counted_witness :
    (∃ st, parse_options sample_env (List.replicate 1 ('g', "")) = some st ∧
      st.opts.do_garbage = 1) ∧
    (∃ st, parse_options sample_env (List.replicate 2 ('g', "")) = some st ∧
      st.opts.do_garbage = 2) ∧
    (∃ st, parse_options sample_env (List.replicate 3 ('g', "")) = some st ∧
      st.opts.do_garbage = 3) ∧
    (∃ st, parse_options sample_env (List.replicate 4 ('g', "")) = some st ∧
      st.opts.do_garbage = 4) ∧
    (∃ st, parse_options sample_env (List.replicate 1 ('A', "")) = some st ∧
      st.opts.do_appearance = 1) ∧
    (∃ st, parse_options sample_env (List.replicate 2 ('A', "")) = some st ∧
      st.opts.do_appearance = 2) := by
  refine ⟨?_, ?_, ?_, ?_, ?_, ?_⟩
  · obtain ⟨st, hp, _, _, _, _, _, hg, _⟩ :=
      repeated_flags_are_counted sample_env (List.replicate 1 ('g', "")) (by decide) (by decide)
    exact ⟨st, hp, by rw [hg]; decide⟩
  · obtain ⟨st, hp, _, _, _, _, _, hg, _⟩ :=
      repeated_flags_are_counted sample_env (List.replicate 2 ('g', "")) (by decide) (by decide)
    exact ⟨st, hp, by rw [hg]; decide⟩
  · obtain ⟨st, hp, _, _, _, _, _, hg, _⟩ :=
      repeated_flags_are_counted sample_env (List.replicate 3 ('g', "")) (by decide) (by decide)
    exact ⟨st, hp, by rw [hg]; decide⟩
  · obtain ⟨st, hp, _, _, _, _, _, hg, _⟩ :=
      repeated_flags_are_counted sample_env (List.replicate 4 ('g', "")) (by decide) (by decide)
    exact ⟨st, hp, by rw [hg]; decide⟩
  · obtain ⟨st, hp, _, _, _, _, _, _, _, _, _, hA, _⟩ :=
      repeated_flags_are_counted sample_env (List.replicate 1 ('A', "")) (by decide) (by decide)
    exact ⟨st, hp, by rw [hA]; decide⟩
  · obtain ⟨st, hp, _, _, _, _, _, _, _, _, _, hA, _⟩ :=
      repeated_flags_are_counted sample_env (List.replicate 2 ('A', "")) (by decide) (by decide)
    exact ⟨st, hp, by rw [hA]; decide⟩

/-- C7, refuted at `mutool clean in.pdf in.pdf` and at `mutool clean out.pdf`: in both,
`pdf_clean_file` is called with an output path equal to the input path. -/
theorem output_path_can_equal_input :
    (∃ call, (pdfclean_main sample_env { calls := [], fz_optind := 1 }
        ["clean", "in.pdf", "in.pdf"]).cleaned = some call ∧
      call.infile = "in.pdf" ∧ call.outfile = "in.pdf" ∧ call.outfile = call.infile) ∧
    (∃ call, (pdfclean_main sample_env { calls := [], fz_optind := 1 }
        ["clean", "out.pdf"]).cleaned = some call ∧
      call.infile = "out.pdf" ∧ call.outfile = "out.pdf" ∧ call.outfile = call.infile) := by
  constructor
  · have hi : (pdfclean_main sample_env { calls := [], fz_optind := 1 }
        ["clean", "in.pdf", "in.pdf"]).cleaned.map (fun call => (call.infile, call.outfile)) =
        some ("in.pdf", "in.pdf") := by decide
    cases h : (pdfclean_main sample_env { calls := [], fz_optind := 1 }
        ["clean", "in.pdf", "in.pdf"]).cleaned with
    | none => exact absurd h (by decide)
    | some call =>
      rw [h] at hi
      simp only [Option.map_some', Option.some.injEq, Prod.mk.injEq] at hi
      exact ⟨call, rfl, hi.1, hi.2, by rw [hi.1, hi.2]⟩
  · have hi : (pdfclean_main sample_env { calls := [], fz_optind := 1 }
        ["clean", "out.pdf"]).cleaned.map (fun call => (call.infile, call.outfile)) =
        some ("out.pdf", "out.pdf") := by decide
    cases h : (pdfclean_main sample_env { calls := [], fz_optind := 1 }
        ["clean", "out.pdf"]).cleaned with
    | none => exact absurd h (by decide)
    | some call =>
      rw [h] at hi
      simp only [Option.map_some', Option.some.injEq, Prod.mk.injEq] at hi
      exact ⟨call, rfl, hi.1, hi.2, by rw [hi.1, hi.2]⟩

/-- C7 as amended: the input path handed to `pdf_clean_file` is the first positional
argument, the output path is the second positional argument when ".pdf" or ".PDF"
occurs in it and the default "out.pdf" otherwise, and the output path is
equal to the input path in exactly two cases: the second positional argument is taken
as the output path and is the input path again, or the default is used and the input
path is "out.pdf".  In every other case the output path differs from the input path. -/
theorem output_path_equals_input_iff (env : Env) (run : GetoptRun) (argv : List String)
    (call : CleanCall)
    (hcall : (pdfclean_main env run argv).cleaned = some call) :
    (positionals run argv)[0]? = some call.infile ∧
    ((∃ s, (positionals run argv)[1]? = some s ∧
        (".pdf".toList <:+: s.toList ∨ ".PDF".toList <:+: s.toList) ∧ call.outfile = s) ∨
      ((∀ s, (positionals run argv)[1]? = some s →
        ¬ ".pdf".toList <:+: s.toList ∧ ¬ ".PDF".toList <:+: s.toList) ∧
        call.outfile = "out.pdf")) ∧
    (call.outfile = call.infile ↔
      (∃ s, (positionals run argv)[1]? = some s ∧
        (".pdf".toList <:+: s.toList ∨ ".PDF".toList <:+: s.toList) ∧ s = call.infile) ∨
      ((∀ s, (positionals run argv)[1]? = some s →
        ¬ ".pdf".toList <:+: s.toList ∧ ¬ ".PDF".toList <:+: s.toList) ∧
        call.infile = "out.pdf")) := by
  obtain ⟨st, _, _, _, _, _, input, rest, hpos, hinfile, hout, _⟩ :=
    pdfclean_main_call env run argv call hcall
  rw [hpos]
  refine ⟨by simp [hinfile], ?_⟩
  cases rest with
  | nil =>
    simp only at hout
    have hnone : ([input] : List String)[1]? = none := by simp
    rw [hnone]
    refine ⟨Or.inr ⟨fun s h => absurd h (by simp), hout⟩, ?_⟩
    rw [hout]
    constructor
    · intro h
      exact Or.inr ⟨fun s h1 => absurd h1 (by simp), h.symm⟩
    · rintro (⟨s, h1, _⟩ | ⟨_, h2⟩)
      · exact absurd h1 (by simp)
      · exact h2.symm
  | cons s pages =>
    simp only at hout
    have hsome : (input :: s :: pages)[1]? = some s := by simp
    rw [hsome]
    by_cases hn : names_pdf s = true
    · rw [if_pos hn] at hout
      have hinf := (names_pdf_iff s).mp hn
      refine ⟨Or.inl ⟨s, rfl, hinf, hout⟩, ?_⟩
      rw [hout]
      constructor
      · intro h
        exact Or.inl ⟨s, rfl, hinf, h⟩
      · rintro (⟨s1, h1, _, h3⟩ | ⟨h1, _⟩)
        · simp only [Option.some.injEq] at h1
          rw [h1]; exact h3
        · exact absurd hinf (not_or.mpr (h1 s rfl))
    · rw [if_neg hn] at hout
      have hninf := not_or.mp ((names_pdf_iff s).not.mp hn)
      have hall : ∀ s1, some s = some s1 →
          ¬ ".pdf".toList <:+: s1.toList ∧ ¬ ".PDF".toList <:+: s1.toList := by
        intro s1 h1
        simp only [Option.some.injEq] at h1
        rw [← h1]; exact hninf
      refine ⟨Or.inr ⟨hall, hout⟩, ?_⟩
      rw [hout]
      constructor
      · intro h
        exact Or.inr ⟨hall, h.symm⟩
      · rintro (⟨s1, h1, h2, _⟩ | ⟨_, h2⟩)
        · simp only [Option.some.injEq] at h1
          rw [← h1] at h2
          exact absurd h2 (not_or.mpr hninf)
        · exact h2.symm

/-- C7 as amended, at `mutool clean in.pdf result.pdf`, `mutool clean out.pdf result.pdf`
and `mutool clean doc doc`: `pdf_clean_file` is called and in each the output path
differs from the input path. -/
theorem output_path_equals_input_iff_witness :
    (∃ call, (pdfclean_main sample_env { calls := [], fz_optind := 1 }
        ["clean", "in.pdf", "result.pdf"]).cleaned = some call ∧
      call.infile = "in.pdf" ∧ call.outfile ≠ call.infile) ∧
    (∃ call, (pdfclean_main sample_env { calls := [], fz_optind := 1 }
        ["clean", "out.pdf", "result.pdf"]).cleaned = some call ∧
      call.infile = "out.pdf" ∧ call.outfile ≠ call.infile) ∧
    (∃ call, (pdfclean_main sample_env { calls := [], fz_optind := 1 }
        ["clean", "doc", "doc"]).cleaned = some call ∧
      call.infile = "doc" ∧ call.outfile ≠ call.infile) := by
  refine ⟨?_, ?_, ?_⟩
  · have hi : (pdfclean_main sample_env { calls := [], fz_optind := 1 }
        ["clean", "in.pdf", "result.pdf"]).cleaned.map (fun call => call.infile) =
        some "in.pdf" := by decide
    cases h : (pdfclean_main sample_env { calls := [], fz_optind := 1 }
        ["clean", "in.pdf", "result.pdf"]).cleaned with
    | none => exact absurd h (by decide)
    | some call =>
      rw [h] at hi
      simp only [Option.map_some', Option.some.injEq] at hi
      refine ⟨call, rfl, hi, fun heq => ?_⟩
      have hcase := (output_path_equals_input_iff sample_env _ _ call h).2.2.mp heq
      rw [hi] at hcase
      revert hcase
      simp [positionals]
  · have hi : (pdfclean_main sample_env { calls := [], fz_optind := 1 }
        ["clean", "out.pdf", "result.pdf"]).cleaned.map (fun call => call.infile) =
        some "out.pdf" := by decide
    cases h : (pdfclean_main sample_env { calls := [], fz_optind := 1 }
        ["clean", "out.pdf", "result.pdf"]).cleaned with
    | none => exact absurd h (by decide)
    | some call =>
      rw [h] at hi
      simp only [Option.map_some', Option.some.injEq] at hi
      refine ⟨call, rfl, hi, fun heq => ?_⟩
      have hcase := (output_path_equals_input_iff sample_env _ _ call h).2.2.mp heq
      rw [hi] at hcase
      revert hcase
      simp [positionals]
      decide
  · have hi : (pdfclean_main sample_env { calls := [], fz_optind := 1 }
        ["clean", "doc", "doc"]).cleaned.map (fun call => call.infile) =
        some "doc" := by decide
    cases h : (pdfclean_main sample_env { calls := [], fz_optind := 1 }
        ["clean", "doc", "doc"]).cleaned with
    | none => exact absurd h (by decide)
    | some call =>
      rw [h] at hi
      simp only [Option.map_some', Option.some.injEq] at hi
      refine ⟨call, rfl, hi, fun heq => ?_⟩
      have hcase := (output_path_equals_input_iff sample_env _ _ call h).2.2.mp heq
      rw [hi] at hcase
      revert hcase
      simp [positionals]
      decide

/-- C8: when the context can be created, every option letter is recognised and at least
one positional argument is present, `pdfclean_main` calls `pdf_clean_file` and returns 0
if that call does not throw and 1 if it throws.  So it returns 0 exactly when every
option letter is recognised, at least one positional argument is present and
`pdf_clean_file` is called and does not throw; otherwise it returns 1.  An unrecognised
option or a missing input file gives 1 with no call of `pdf_clean_file`; the value
returned is always 0 or 1. -/
theorem exit_status (env : Env) (run : GetoptRun) (argv : List String)
    (hctx : env.fz_new_context_ok = true) :
    ((∀ r ∈ run.calls, r.1 ∈ option_letters) → 1 ≤ (positionals run argv).length →
      ∃ call, (pdfclean_main env run argv).cleaned = some call ∧
        (env.pdf_clean_file_throws call = false →
          (pdfclean_main env run argv).ending = Ending.returned 0) ∧
        (env.pdf_clean_file_throws call = true →
          (pdfclean_main env run argv).ending = Ending.returned 1)) ∧
    ((pdfclean_main env run argv).ending = Ending.returned 0 ↔
      (∀ r ∈ run.calls, r.1 ∈ option_letters) ∧ 1 ≤ (positionals run argv).length ∧
      ∃ call, (pdfclean_main env run argv).cleaned = some call ∧
        env.pdf_clean_file_throws call = false) ∧
    ((pdfclean_main env run argv).ending ≠ Ending.returned 0 →
      (pdfclean_main env run argv).ending = Ending.returned 1) ∧
    (∀ call, (pdfclean_main env run argv).cleaned = some call →
      env.pdf_clean_file_throws call = true →
      (pdfclean_main env run argv).ending = Ending.returned 1) ∧
    ((¬ (∀ r ∈ run.calls, r.1 ∈ option_letters) ∨ (positionals run argv).length < 1) →
      (pdfclean_main env run argv).ending = Ending.returned 1 ∧
      (pdfclean_main env run argv).cleaned = none) ∧
    ((pdfclean_main env run argv).ending = Ending.returned 0 ∨
      (pdfclean_main env run argv).ending = Ending.returned 1) := by
  refine ⟨?_, ?_⟩
  · intro hrec hpos
    obtain ⟨st, hp⟩ :=
      Option.isSome_iff_exists.mp ((parse_options_isSome env run.calls).mpr hrec)
    obtain ⟨call, hmain, _⟩ := pdfclean_main_reach env run argv st hp hpos hctx
    refine ⟨call, by rw [hmain], ?_, ?_⟩
    · intro hno
      rw [hmain, hno]
      rfl
    · intro hyes
      rw [hmain, hyes]
      rfl
  by_cases hrec : ∀ r ∈ run.calls, r.1 ∈ option_letters
  · obtain ⟨st, hp⟩ := Option.isSome_iff_exists.mp ((parse_options_isSome env run.calls).mpr hrec)
    by_cases hpos : 1 ≤ (positionals run argv).length
    · obtain ⟨call, hmain, _⟩ := pdfclean_main_reach env run argv st hp hpos hctx
      rw [hmain]
      cases hthrow : env.pdf_clean_file_throws call with
      | false =>
        refine ⟨?_, ?_, ?_, ?_, ?_⟩
        · simp only [Bool.false_eq_true, if_false, true_iff]
          exact ⟨hrec, hpos, call, rfl, hthrow⟩
        · intro h; exact absurd (by simp) h
        · intro call1 hc ht
          simp only [Option.some.injEq] at hc
          subst hc
          rw [hthrow] at ht
          exact absurd ht (by simp)
        · rintro (h | h)
          · exact absurd hrec h
          · omega
        · left; simp
      | true =>
        refine ⟨?_, ?_, ?_, ?_, ?_⟩
        · simp only [if_true]
          constructor
          · intro h; exact absurd h (by simp)
          · rintro ⟨_, _, call1, hc, ht⟩
            simp only [Option.some.injEq] at hc
            subst hc
            rw [hthrow] at ht
            exact absurd ht (by simp)
        · intro _; simp
        · intro _ _ _; simp
        · rintro (h | h)
          · exact absurd hrec h
          · omega
        · right; simp
    · have hmain := pdfclean_main_usage_input env run argv (by omega)
      rw [hmain]
      refine ⟨?_, ?_, ?_, ?_, ?_⟩
      · constructor
        · intro h; exact absurd h (by simp)
        · rintro ⟨_, h, _⟩; exact absurd h hpos
      · intro _; rfl
      · intro _ hc; exact absurd hc (by simp)
      · intro _; exact ⟨rfl, rfl⟩
      · right; rfl
  · have hnone : parse_options env run.calls = none := by
      cases hp : parse_options env run.calls with
      | none => rfl
      | some st =>
        exact absurd ((parse_options_isSome env run.calls).mp (by rw [hp]; rfl)) hrec
    have hmain := pdfclean_main_usage_option env run argv hnone
    rw [hmain]
    refine ⟨?_, ?_, ?_, ?_, ?_⟩
    · constructor
      · intro h; exact absurd h (by simp)
      · rintro ⟨h, _⟩; exact absurd h hrec
    · intro _; rfl
    · intro _ hc; exact absurd hc (by simp)
    · intro _; exact ⟨rfl, rfl⟩
    · right; rfl

/-- C8, at `mutool clean -g in.pdf` with a clean that succeeds (called, returns 0), the
same with a clean that throws (called, returns 1), `mutool clean -x in.pdf` (returns 1,
no call) and `mutool clean -g` (returns 1, no call). -/
theorem exit_status_witness :
    ((pdfclean_main sample_env { calls := [('g', "")], fz_optind := 2 }
      ["clean", "-g", "in.pdf"]).ending = Ending.returned 0 ∧
     (pdfclean_main sample_env { calls := [('g', "")], fz_optind := 2 }
      ["clean", "-g", "in.pdf"]).cleaned.isSome = true) ∧
    ((pdfclean_main throwing_env { calls := [('g', "")], fz_optind := 2 }
      ["clean", "-g", "in.pdf"]).ending = Ending.returned 1 ∧
     (pdfclean_main throwing_env { calls := [('g', "")], fz_optind := 2 }
      ["clean", "-g", "in.pdf"]).cleaned.isSome = true) ∧
    ((pdfclean_main sample_env { calls := [('?', "")], fz_optind := 2 }
      ["clean", "-x", "in.pdf"]).ending = Ending.returned 1 ∧
     (pdfclean_main sample_env { calls := [('?', "")], fz_optind := 2 }
      ["clean", "-x", "in.pdf"]).cleaned = none) ∧
    ((pdfclean_main sample_env { calls := [('g', "")], fz_optind := 2 }
      ["clean", "-g"]).ending = Ending.returned 1 ∧
     (pdfclean_main sample_env { calls := [('g', "")], fz_optind := 2 }
      ["clean", "-g"]).cleaned = none) := by
  refine ⟨?_, ?_, ?_, ?_⟩
  · obtain ⟨call, hc, hzero, _⟩ :=
      (exit_status sample_env { calls := [('g', "")], fz_optind := 2 }
        ["clean", "-g", "in.pdf"] rfl).1 (by decide) (by decide)
    exact ⟨hzero rfl, by rw [hc]; rfl⟩
  · obtain ⟨call, hc, _, hone⟩ :=
      (exit_status throwing_env { calls := [('g', "")], fz_optind := 2 }
        ["clean", "-g", "in.pdf"] rfl).1 (by decide) (by decide)
    exact ⟨hone rfl, by rw [hc]; rfl⟩
  · exact (exit_status sample_env { calls := [('?', "")], fz_optind := 2 }
      ["clean", "-x", "in.pdf"] rfl).2.2.2.2.1 (Or.inl (by decide))
  · exact (exit_status sample_env { calls := [('g', "")], fz_optind := 2 }
      ["clean", "-g"] rfl).2.2.2.2.1 (Or.inr (by decide))

/-- C9: when `pdf_clean_file` is called, the first positional argument is its input path;
the second positional argument is its output path if and only if ".pdf" or ".PDF"
occurs in it, and otherwise the output path is "out.pdf"; the page arguments are the
positional arguments that remain, in order, and their count is the count handed over. -/
theorem positional_arguments_split (env : Env) (run : GetoptRun) (argv : List String)
    (call : CleanCall) (hcall : (pdfclean_main env run argv).cleaned = some call) :
    ∃ input rest, positionals run argv = input :: rest ∧ call.infile = input ∧
      ((∃ out pages, rest = out :: pages ∧
          (".pdf".toList <:+: out.toList ∨ ".PDF".toList <:+: out.toList) ∧
          call.outfile = out ∧ call.argv = pages) ∨
       ((∀ out pages, rest = out :: pages →
          ¬ ".pdf".toList <:+: out.toList ∧ ¬ ".PDF".toList <:+: out.toList) ∧
          call.outfile = "out.pdf" ∧ call.argv = rest)) ∧
      call.argc = (call.argv.length : Int) := by
  obtain ⟨st, _, _, _, _, _, input, rest, hpos, hinfile, hout, hargv, hargc⟩ :=
    pdfclean_main_call env run argv call hcall
  refine ⟨input, rest, hpos, hinfile, ?_, hargc⟩
  cases rest with
  | nil =>
    right
    simp only at hout hargv
    exact ⟨fun out pages h => absurd h (by simp), hout, hargv⟩
  | cons s pages =>
    simp only at hout hargv
    by_cases hn : names_pdf s = true
    · left
      rw [if_pos hn] at hout hargv
      exact ⟨s, pages, rfl, (names_pdf_iff s).mp hn, hout, hargv⟩
    · right
      rw [if_neg hn] at hout hargv
      refine ⟨?_, hout, hargv⟩
      intro out pages1 h
      simp only [List.cons.injEq] at h
      rw [← h.1]
      have := (names_pdf_iff s).not.mp hn
      exact not_or.mp this

/-- C9, at `mutool clean -g in.pdf result.PDF 1-3 5` and `mutool clean -g in.pdf 1-3 5`:
in the first the output path is "result.PDF", in the second "out.pdf", and in both the
pages are "1-3" and "5". -/
theorem positional_arguments_split_witness :
    (∃ call, (pdfclean_main sample_env { calls := [('g', "")], fz_optind := 2 }
        ["clean", "-g", "in.pdf", "result.PDF", "1-3", "5"]).cleaned = some call ∧
      call.infile = "in.pdf" ∧ call.outfile = "result.PDF" ∧ call.argv = ["1-3", "5"] ∧
      call.argc = (call.argv.length : Int)) ∧
    (∃ call, (pdfclean_main sample_env { calls := [('g', "")], fz_optind := 2 }
        ["clean", "-g", "in.pdf", "1-3", "5"]).cleaned = some call ∧
      call.infile = "in.pdf" ∧ call.outfile = "out.pdf" ∧ call.argv = ["1-3", "5"] ∧
      call.argc = (call.argv.length : Int)) := by
  constructor
  · have hi : (pdfclean_main sample_env { calls := [('g', "")], fz_optind := 2 }
        ["clean", "-g", "in.pdf", "result.PDF", "1-3", "5"]).cleaned.map
          (fun call => (call.infile, call.outfile, call.argv)) =
        some ("in.pdf", "result.PDF", ["1-3", "5"]) := by decide
    cases h : (pdfclean_main sample_env { calls := [('g', "")], fz_optind := 2 }
        ["clean", "-g", "in.pdf", "result.PDF", "1-3", "5"]).cleaned with
    | none => exact absurd h (by decide)
    | some call =>
      rw [h] at hi
      simp only [Option.map_some', Option.some.injEq, Prod.mk.injEq] at hi
      obtain ⟨_, _, _, _, _, hargc⟩ := positional_arguments_split sample_env _ _ call h
      exact ⟨call, rfl, hi.1, hi.2.1, hi.2.2, hargc⟩
  · have hi : (pdfclean_main sample_env { calls := [('g', "")], fz_optind := 2 }
        ["clean", "-g", "in.pdf", "1-3", "5"]).cleaned.map
          (fun call => (call.infile, call.outfile, call.argv)) =
        some ("in.pdf", "out.pdf", ["1-3", "5"]) := by decide
    cases h : (pdfclean_main sample_env { calls := [('g', "")], fz_optind := 2 }
        ["clean", "-g", "in.pdf", "1-3", "5"]).cleaned with
    | none => exact absurd h (by decide)
    | some call =>
      rw [h] at hi
      simp only [Option.map_some', Option.some.injEq, Prod.mk.injEq] at hi
      obtain ⟨_, _, _, _, _, hargc⟩ := positional_arguments_split sample_env _ _ call h
      exact ⟨call, rfl, hi.1, hi.2.1, hi.2.2, hargc⟩

/-- C10: for options that are all recognised, parsing succeeds and `do_encrypt` ends as
the last `-D` / `-E` option sets it: `PDF_ENCRYPT_NONE` after `-D`,
`encrypt_method_from_string name` after `-E name` (so `PDF_ENCRYPT_UNKNOWN` for a name
that is none of the four), the default value when neither occurs.  That value is not
rejected as a usage error: whenever an input file is present and the context can be
created, `pdf_clean_file` is called and that value is the `do_encrypt` handed to it.
The arm of no other letter changes `do_encrypt`. -/
theorem encryption_follows_last_option (env : Env) (calls : List (Char × String))
    (hrec : ∀ r ∈ calls, r.1 ∈ option_letters) :
    ∃ st, parse_options env calls = some st ∧
      st.opts.do_encrypt =
        (match last_encrypt_option calls with
          | none => env.pdf_default_write_options.do_encrypt
          | some (c, name) =>
            if c = 'D' then PDF_ENCRYPT_NONE else encrypt_method_from_string name) ∧
      (∀ name, last_encrypt_option calls = some ('E', name) →
        name ∉ ["rc4-40", "rc4-128", "aes-128", "aes-256"] →
        st.opts.do_encrypt = PDF_ENCRYPT_UNKNOWN) ∧
      (∀ (fz_optind : Nat) (argv : List String),
        1 ≤ (positionals { calls := calls, fz_optind := fz_optind } argv).length →
        env.fz_new_context_ok = true →
        ∃ call,
          (pdfclean_main env { calls := calls, fz_optind := fz_optind } argv).cleaned =
            some call ∧
          call.opts.do_encrypt = st.opts.do_encrypt) ∧
      (∀ (fz_optind : Nat) (argv : List String) (call : CleanCall),
        (pdfclean_main env { calls := calls, fz_optind := fz_optind } argv).cleaned =
          some call →
        call.opts.do_encrypt = st.opts.do_encrypt) ∧
      (∀ (c : Char) (a : String) (s s1 : ParseState), c ≠ 'D' → c ≠ 'E' →
        option_case env c a s = some s1 → s1.opts.do_encrypt = s.opts.do_encrypt) := by
  obtain ⟨st, hp⟩ := Option.isSome_iff_exists.mp ((parse_options_isSome env calls).mpr hrec)
  obtain ⟨st0, hloop, hopts, _⟩ := parse_options_eq_some env calls st hp
  have henc : st.opts.do_encrypt =
      encrypt_after env.pdf_default_write_options.do_encrypt calls := by
    rw [hopts, derive_pretty_encrypt, option_loop_encrypt env calls (initial_state env) st0 hloop]
    rfl
  refine ⟨st, hp, henc, ?_, ?_, ?_, ?_⟩
  · intro name hlast hname
    rw [henc]
    unfold encrypt_after
    rw [hlast]
    simp only [show ¬ ('E' = 'D') by decide, if_false]
    exact encrypt_method_from_string_unknown name hname
  · intro fz_optind argv hpos hctx
    obtain ⟨call, hmain, hopts1, _⟩ :=
      pdfclean_main_reach env { calls := calls, fz_optind := fz_optind } argv st hp hpos hctx
    exact ⟨call, by rw [hmain], by rw [hopts1]⟩
  · intro fz_optind argv call hcall
    obtain ⟨st1, hp1, _, _, hopts1, _⟩ :=
      pdfclean_main_call env { calls := calls, fz_optind := fz_optind } argv call hcall
    rw [hp] at hp1
    simp only [Option.some.injEq] at hp1
    rw [hopts1, ← hp1]
  · intro c a s s1 hD hE hcase
    rw [option_case_encrypt env c a s s1 hcase, if_neg hD, if_neg hE]

/-- C10, at `mutool clean -E aes-256 -D -g -E rc5 in.pdf`: the options are recognised,
`pdf_clean_file` is called and is handed `PDF_ENCRYPT_UNKNOWN`; at
`mutool clean -E aes-256 -g in.pdf` it is handed `PDF_ENCRYPT_AES_256`, at
`mutool clean -E aes-256 -D in.pdf` it is handed `PDF_ENCRYPT_NONE`, and at
`mutool clean -g in.pdf` the default, `PDF_ENCRYPT_KEEP`. -/
theorem encryption_follows_last_option_witness :
    (∃ call, (pdfclean_main sample_env
        { calls := [('E', "aes-256"), ('D', ""), ('g', ""), ('E', "rc5")], fz_optind := 7 }
        ["clean", "-E", "aes-256", "-D", "-g", "-E", "rc5", "in.pdf"]).cleaned = some call ∧
      call.opts.do_encrypt = PDF_ENCRYPT_UNKNOWN) ∧
    (∃ call, (pdfclean_main sample_env
        { calls := [('E', "aes-256"), ('g', "")], fz_optind := 4 }
        ["clean", "-E", "aes-256", "-g", "in.pdf"]).cleaned = some call ∧
      call.opts.do_encrypt = PDF_ENCRYPT_AES_256) ∧
    (∃ call, (pdfclean_main sample_env
        { calls := [('E', "aes-256"), ('D', "")], fz_optind := 4 }
        ["clean", "-E", "aes-256", "-D", "in.pdf"]).cleaned = some call ∧
      call.opts.do_encrypt = PDF_ENCRYPT_NONE) ∧
    (∃ call, (pdfclean_main sample_env { calls := [('g', "")], fz_optind := 2 }
        ["clean", "-g", "in.pdf"]).cleaned = some call ∧
      call.opts.do_encrypt = PDF_ENCRYPT_KEEP) := by
  refine ⟨?_, ?_, ?_, ?_⟩
  · obtain ⟨st, _, henc, _, hpass, _⟩ := encryption_follows_last_option sample_env
      [('E', "aes-256"), ('D', ""), ('g', ""), ('E', "rc5")] (by decide)
    obtain ⟨call, hc, he⟩ := hpass 7
      ["clean", "-E", "aes-256", "-D", "-g", "-E", "rc5", "in.pdf"] (by decide) rfl
    exact ⟨call, hc, by rw [he, henc]; decide⟩
  · obtain ⟨st, _, henc, _, hpass, _⟩ := encryption_follows_last_option sample_env
      [('E', "aes-256"), ('g', "")] (by decide)
    obtain ⟨call, hc, he⟩ := hpass 4 ["clean", "-E", "aes-256", "-g", "in.pdf"] (by decide) rfl
    exact ⟨call, hc, by rw [he, henc]; decide⟩
  · obtain ⟨st, _, henc, _, hpass, _⟩ := encryption_follows_last_option sample_env
      [('E', "aes-256"), ('D', "")] (by decide)
    obtain ⟨call, hc, he⟩ := hpass 4 ["clean", "-E", "aes-256", "-D", "in.pdf"] (by decide) rfl
    exact ⟨call, hc, by rw [he, henc]; decide⟩
  · obtain ⟨st, _, henc, _, hpass, _⟩ := encryption_follows_last_option sample_env
      [('g', "")] (by decide)
    obtain ⟨call, hc, he⟩ := hpass 2 ["clean", "-g", "in.pdf"] (by decide) rfl
    exact ⟨call, hc, by rw [he, henc]; decide⟩

end PdfClean
